import Mathlib

/-!
A shallow embedding of the `etc-passwd` crate (`src/lib.rs`): a safe wrapper
around the reentrant libc lookup functions `getpwnam_r` / `getpwuid_r`.

The C-level lookup primitive is modelled by the sequence of observable
outcomes it produces across successive invocations inside the retry loop of
`getpw_r`: each invocation either reports success (the output
pointer-to-pointer is non-null, and the raw `passwd` struct together with the
scratch-buffer contents that its string fields point into are observable) or
reports failure (the output pointer is null, an integer return code is
produced, and a thread-local errno value is observable afterwards).

Byte strings are `List Nat`; C string pointers are offsets into the scratch
buffer; machine integers carry no arithmetic here beyond `amt * 2`, so `Nat`
and `Int` are used directly.
-/

/-- Linux errno value of `libc::EPERM`. -/
def EPERM : Int := 1

/-- Linux errno value of `libc::ENOENT`. -/
def ENOENT : Int := 2

/-- Linux errno value of `libc::ESRCH`. -/
def ESRCH : Int := 3

/-- Linux errno value of `libc::EINTR`. -/
def EINTR : Int := 4

/-- Linux errno value of `libc::EBADF`. -/
def EBADF : Int := 9

/-- Linux errno value of `libc::ERANGE`. -/
def ERANGE : Int := 34

/-- The owned `Passwd` struct of the crate: seven fields, the five textual
ones owned byte strings (`CString`), the two numeric ones `uid_t` / `gid_t`. -/
structure Passwd where
  name : List Nat
  passwd : List Nat
  uid : Nat
  gid : Nat
  gecos : List Nat
  dir : List Nat
  shell : List Nat
deriving Repr, DecidableEq

/-- The raw `libc::passwd` struct as populated by the primitive: the five
string fields are pointers (modelled as offsets) into the scratch buffer,
the two numeric fields are plain integers. -/
structure CPasswd where
  pw_name : Nat
  pw_passwd : Nat
  pw_uid : Nat
  pw_gid : Nat
  pw_gecos : Nat
  pw_dir : Nat
  pw_shell : Nat
deriving Repr, DecidableEq

/-- `CStr::from_ptr`: the NUL-terminated byte sequence starting at offset `p`
of the buffer, without its terminator. -/
def cstrFromPtr (buf : List Nat) (p : Nat) : List Nat :=
  (buf.drop p).takeWhile (fun b => b ≠ 0)

/-- `Passwd::from_c_struct`: copy every string field out of the scratch
buffer (`CStr::from_ptr(..).to_owned()`) and the two numeric fields by
value. -/
def Passwd.from_c_struct (buf : List Nat) (pw : CPasswd) : Passwd :=
  { name := cstrFromPtr buf pw.pw_name
    passwd := cstrFromPtr buf pw.pw_passwd
    uid := pw.pw_uid
    gid := pw.pw_gid
    gecos := cstrFromPtr buf pw.pw_gecos
    dir := cstrFromPtr buf pw.pw_dir
    shell := cstrFromPtr buf pw.pw_shell }

/-- One observable outcome of invoking the reentrant lookup primitive:
either the primitive set `*result` non-null after populating the raw struct
and the scratch buffer, or it left `*result` null, returned the integer
`ret`, and left `errno` in the thread-local error slot read by
`Error::last_os_error()`. -/
inductive PrimOutcome where
  | success (buf : List Nat) (pw : CPasswd)
  | failure (ret : Int) (errno : Int)
deriving Repr, DecidableEq

/-- The retry loop of `getpw_r` (`src/lib.rs` lines 128-165), run against the
modelled sequence of primitive outcomes, one outcome consumed per invocation;
`amt` is the currently requested scratch-buffer size. Returns `none` when the
modelled outcome sequence is exhausted with the loop still running (no
terminal result produced within these invocations), otherwise the terminal
result: `Except.error errno` for `Err(e)`, `Except.ok none` for `Ok(None)`,
`Except.ok (some p)` for `Ok(Some(passwd))`. -/
def getpw_r_loop : List PrimOutcome → Nat → Option (Except Int (Option Passwd))
  | [], _ => none
  | o :: rest, amt =>
    match o with
    | .success buf pw => some (Except.ok (some (Passwd.from_c_struct buf pw)))
    | .failure _ errno =>
      if errno = EINTR then
        getpw_r_loop rest amt
      else if errno = ERANGE then
        getpw_r_loop rest (amt * 2)
      else if errno = 0 ∨ errno = ENOENT ∨ errno = ESRCH ∨ errno = EBADF ∨ errno = EPERM then
        some (Except.ok none)
      else
        some (Except.error errno)

/-- The initial scratch-buffer size of `getpw_r` (`src/lib.rs` lines
124-125): `sysconf(_SC_GETPW_R_SIZE_MAX)` yields `hint` (negative when the
hint is unavailable or unbounded), then `libc::c_long::max(amt, 512) as
usize`. -/
def initial_amt (hint : Int) : Nat :=
  (max hint 512).toNat

/-- `getpw_r`: compute the initial size from the platform hint and run the
retry loop. -/
def getpw_r (hint : Int) (outcomes : List PrimOutcome) :
    Option (Except Int (Option Passwd)) :=
  getpw_r_loop outcomes (initial_amt hint)

/-- The trace of `(amt, capacity)` pairs of the successive primitive
invocations made by the `getpw_r` loop: `amt` is the requested size at that
iteration and `capacity` the scratch-buffer capacity actually passed as
`buflen` after `buf.reserve(amt)` (a `Vec` never shrinks, and `reserve`
guarantees capacity at least the request, so the capacity is
`max cap amt`). The initial capacity comes from `Vec::with_capacity(amt)`. -/
def getpw_r_caps : List PrimOutcome → Nat → Nat → List (Nat × Nat)
  | [], _, _ => []
  | o :: rest, amt, cap =>
    (amt, max cap amt) ::
      match o with
      | .success _ _ => []
      | .failure _ errno =>
        if errno = EINTR then
          getpw_r_caps rest amt (max cap amt)
        else if errno = ERANGE then
          getpw_r_caps rest (amt * 2) (max cap amt)
        else
          []

/-- The invocation trace of a full `getpw_r` call: the buffer starts at
capacity `initial_amt hint` from `Vec::with_capacity`. -/
def getpw_r_capsFull (hint : Int) (outcomes : List PrimOutcome) : List (Nat × Nat) :=
  getpw_r_caps outcomes (initial_amt hint) (initial_amt hint)

/-- The ambient OS as seen by the public entry points: the current uid
reported by `libc::getuid`, the `sysconf` size hint, and the outcome
sequences the two reentrant primitives produce for each key. -/
structure OsEnv where
  getuid : Nat
  size_hint : Int
  uid_outcomes : Nat → List PrimOutcome
  name_outcomes : List Nat → List PrimOutcome

/-- `Passwd::from_uid`: delegate to `getpw_r` keyed by the uid with the
`getpwuid_r` primitive. -/
def Passwd.from_uid (env : OsEnv) (uid : Nat) :
    Option (Except Int (Option Passwd)) :=
  getpw_r env.size_hint (env.uid_outcomes uid)

/-- `Passwd::from_name`: delegate to `getpw_r` keyed by the (interior-NUL
free) name bytes with the `getpwnam_r` primitive. -/
def Passwd.from_name (env : OsEnv) (name : List Nat) :
    Option (Except Int (Option Passwd)) :=
  getpw_r env.size_hint (env.name_outcomes name)

/-- `Passwd::current_user`: `Self::from_uid(libc::getuid())`. -/
def Passwd.current_user (env : OsEnv) :
    Option (Except Int (Option Passwd)) :=
  Passwd.from_uid env env.getuid

/-- Errors of the whole lookup-by-name operation: either the key could not
be represented as a C string, or the OS reported a fatal errno. -/
inductive LookupError where
  | nulError
  | osError (errno : Int)
deriving Repr, DecidableEq

/-- `CString::new` as invoked by the crate's callers, docs and tests to
build the key passed to `Passwd::from_name` (whose argument type `CStr`
already excludes interior NULs): fails exactly when the bytes contain an
embedded NUL terminator. -/
def cstring_new (bytes : List Nat) : Option (List Nat) :=
  if 0 ∈ bytes then none else some bytes

/-- The whole lookup-by-name operation on a raw byte-string key: convert the
key with `cstring_new` (propagating its failure as a fatal error, before any
OS call) and then run `Passwd::from_name` on the valid C string. -/
def lookupByName (env : OsEnv) (bytes : List Nat) :
    Option (Except LookupError (Option Passwd)) :=
  match cstring_new bytes with
  | none => some (Except.error LookupError.nulError)
  | some cs =>
    (Passwd.from_name env cs).map (fun r =>
      match r with
      | Except.ok v => Except.ok v
      | Except.error e => Except.error (LookupError.osError e))

/-- The structural equality test generated by `#[derive(PartialEq)]` on
`Passwd`: field-wise comparison of all seven fields. -/
def Passwd.beq (p q : Passwd) : Bool :=
  p.name == q.name && p.passwd == q.passwd && p.uid == q.uid && p.gid == q.gid &&
    p.gecos == q.gecos && p.dir == q.dir && p.shell == q.shell

/-- Erase the integer return code of every failure outcome (the loop reads
only the errno observed through `Error::last_os_error()`; the primitive's
return value is discarded). -/
def eraseRet : PrimOutcome → PrimOutcome
  | .success buf pw => .success buf pw
  | .failure _ errno => .failure 0 errno

/-- `pre` consists only of transient failures: null result with errno
`EINTR` or `ERANGE`. -/
def transientOnly (pre : List PrimOutcome) : Prop :=
  ∀ o ∈ pre, ∃ ret e, o = PrimOutcome.failure ret e ∧ (e = EINTR ∨ e = ERANGE)

/-- The loop reaches a successful primitive invocation after only transient
failures, and `r` is the record copied field by field out of the raw struct
and scratch buffer of that invocation. -/
def foundFrom (outcomes : List PrimOutcome) (r : Passwd) : Prop :=
  ∃ pre buf pw rest,
    outcomes = pre ++ PrimOutcome.success buf pw :: rest ∧
    transientOnly pre ∧
    r.name = cstrFromPtr buf pw.pw_name ∧
    r.passwd = cstrFromPtr buf pw.pw_passwd ∧
    r.uid = pw.pw_uid ∧
    r.gid = pw.pw_gid ∧
    r.gecos = cstrFromPtr buf pw.pw_gecos ∧
    r.dir = cstrFromPtr buf pw.pw_dir ∧
    r.shell = cstrFromPtr buf pw.pw_shell

/-- Step equation: a successful invocation terminates the loop with the
parsed record. -/
theorem getpw_r_loop_success (buf : List Nat) (pw : CPasswd)
    (rest : List PrimOutcome) (amt : Nat) :
    getpw_r_loop (PrimOutcome.success buf pw :: rest) amt =
      some (Except.ok (some (Passwd.from_c_struct buf pw))) := rfl

/-- Step equation: an `EINTR` failure retries with unchanged state. -/
theorem getpw_r_loop_eintr (ret : Int) (rest : List PrimOutcome) (amt : Nat) :
    getpw_r_loop (PrimOutcome.failure ret EINTR :: rest) amt =
      getpw_r_loop rest amt := rfl

/-- Step equation: an `ERANGE` failure retries with the requested size
doubled. -/
theorem getpw_r_loop_erange (ret : Int) (rest : List PrimOutcome) (amt : Nat) :
    getpw_r_loop (PrimOutcome.failure ret ERANGE :: rest) amt =
      getpw_r_loop rest (amt * 2) := rfl

/-- Step equation: a failure with a non-transient errno terminates the loop,
as `Ok(None)` on the not-found family and `Err(errno)` otherwise. -/
theorem getpw_r_loop_terminal (ret e : Int) (rest : List PrimOutcome) (amt : Nat)
    (h1 : e ≠ EINTR) (h2 : e ≠ ERANGE) :
    getpw_r_loop (PrimOutcome.failure ret e :: rest) amt =
      if e = 0 ∨ e = ENOENT ∨ e = ESRCH ∨ e = EBADF ∨ e = EPERM then
        some (Except.ok none)
      else
        some (Except.error e) := by
  simp only [getpw_r_loop, if_neg h1, if_neg h2]

/-- C1: when the primitive reports failure (null result) and the observed
errno is neither `EINTR` nor `ERANGE`, `getpw_r` terminates at once:
`Ok(None)` exactly for the not-found family `{0, ENOENT, ESRCH, EBADF,
EPERM}`, and `Err` carrying exactly that errno for every other code; absence
is never an error and a fatal code is never downgraded to absence. -/
theorem getpw_r_failure_classification (ret errno : Int) (rest : List PrimOutcome)
    (amt : Nat) (hi : errno ≠ EINTR) (hr : errno ≠ ERANGE) :
    ((errno = 0 ∨ errno = ENOENT ∨ errno = ESRCH ∨ errno = EBADF ∨ errno = EPERM) →
      getpw_r_loop (PrimOutcome.failure ret errno :: rest) amt =
        some (Except.ok none)) ∧
    (¬(errno = 0 ∨ errno = ENOENT ∨ errno = ESRCH ∨ errno = EBADF ∨ errno = EPERM) →
      getpw_r_loop (PrimOutcome.failure ret errno :: rest) amt =
        some (Except.error errno)) := by
  constructor
  · intro h
    rw [getpw_r_loop_terminal ret errno rest amt hi hr, if_pos h]
  · intro h
    rw [getpw_r_loop_terminal ret errno rest amt hi hr, if_neg h]

theorem getpw_r_failure_classification_witness :
    getpw_r_loop [PrimOutcome.failure 0 ENOENT] 512 = some (Except.ok none) :=
  (getpw_r_failure_classification 0 ENOENT [] 512 (by decide) (by decide)).1
    (by decide)

/-- C2: any finite run of `ERANGE` responses, or a single `EINTR` response,
before a success response yields exactly the result of an immediate success
(with any buffer size): buffer growth and interrupt retry are transparent. -/
theorem getpw_r_growth_retry_transparent :
    (∀ (n : Nat) (ret : Int) (buf : List Nat) (pw : CPasswd)
        (rest : List PrimOutcome) (amt amt' : Nat),
        getpw_r_loop
            (List.replicate n (PrimOutcome.failure ret ERANGE) ++
              PrimOutcome.success buf pw :: rest) amt =
          getpw_r_loop (PrimOutcome.success buf pw :: rest) amt') ∧
    (∀ (ret : Int) (buf : List Nat) (pw : CPasswd) (rest : List PrimOutcome)
        (amt : Nat),
        getpw_r_loop
            (PrimOutcome.failure ret EINTR :: PrimOutcome.success buf pw :: rest)
            amt =
          getpw_r_loop (PrimOutcome.success buf pw :: rest) amt) := by
  constructor
  · intro n
    induction n with
    | zero => intro ret buf pw rest amt amt'; rfl
    | succ n ih =>
      intro ret buf pw rest amt amt'
      rw [List.replicate_succ, List.cons_append, getpw_r_loop_erange]
      exact ih ret buf pw rest (amt * 2) amt'
  · intro ret buf pw rest amt
    rw [getpw_r_loop_eintr]

/-- C5: the initial scratch-buffer size equals the platform hint when the
hint is at least 512, and equals 512 when the hint is unavailable (negative)
or below 512; the first invocation is always made with capacity at least
512. -/
theorem initial_amt_spec (hint : Int) (outcomes : List PrimOutcome) :
    (512 ≤ hint → initial_amt hint = hint.toNat) ∧
    (hint < 512 → initial_amt hint = 512) ∧
    512 ≤ initial_amt hint ∧
    (∀ p ∈ (getpw_r_capsFull hint outcomes).head?, 512 ≤ p.2) := by
  have h512 : 512 ≤ initial_amt hint := by
    unfold initial_amt
    rcases le_total hint 512 with h | h
    · rw [max_eq_right h]
      decide
    · rw [max_eq_left h]
      omega
  refine ⟨?_, ?_, h512, ?_⟩
  · intro h
    unfold initial_amt
    rw [max_eq_left h]
  · intro h
    unfold initial_amt
    rw [max_eq_right (le_of_lt h)]
    rfl
  · intro p hp
    cases outcomes with
    | nil => simp [getpw_r_capsFull, getpw_r_caps] at hp
    | cons o rest =>
      have hh : (getpw_r_capsFull hint (o :: rest)).head? =
          some (initial_amt hint, max (initial_amt hint) (initial_amt hint)) := rfl
      rw [hh] at hp
      simp only [Option.mem_def, Option.some.injEq] at hp
      subst hp
      simpa using h512

theorem initial_amt_spec_witness :
    initial_amt (-1) = 512 :=
  (initial_amt_spec (-1) []).2.1 (by decide)

/-- C6: a name key containing an embedded NUL terminator cannot be
represented as a C string; the whole lookup-by-name operation fails with a
fatal (non-OS) error, and the result does not depend on the OS environment
at all — no OS lookup call is attempted. -/
theorem from_name_nul_rejected (bytes : List Nat) (h : 0 ∈ bytes) :
    (∀ env : OsEnv,
        lookupByName env bytes = some (Except.error LookupError.nulError)) ∧
    (∀ env env' : OsEnv, lookupByName env bytes = lookupByName env' bytes) := by
  have hc : cstring_new bytes = none := by simp [cstring_new, h]
  constructor
  · intro env
    simp [lookupByName, hc]
  · intro env env'
    simp [lookupByName, hc]

theorem from_name_nul_rejected_witness :
    lookupByName ⟨0, -1, fun _ => [], fun _ => []⟩ [97, 0] =
      some (Except.error LookupError.nulError) :=
  (from_name_nul_rejected [97, 0] (by decide)).1 ⟨0, -1, fun _ => [], fun _ => []⟩

/-- C7: an iteration observing `EINTR` or `ERANGE` never produces a terminal
result: the loop continues with the same (respectively doubled) requested
size, and a whole outcome sequence of transient failures produces no
terminal result at all — there is no retry limit. -/
theorem getpw_r_transient_retried :
    (∀ (ret e : Int) (rest : List PrimOutcome) (amt : Nat),
        (e = EINTR ∨ e = ERANGE) →
        getpw_r_loop (PrimOutcome.failure ret e :: rest) amt =
          getpw_r_loop rest (if e = ERANGE then amt * 2 else amt)) ∧
    (∀ (outcomes : List PrimOutcome) (amt : Nat),
        transientOnly outcomes → getpw_r_loop outcomes amt = none) := by
  constructor
  · rintro ret e rest amt (he | he) <;> subst he
    · rw [getpw_r_loop_eintr, if_neg (by decide : ¬(EINTR = ERANGE))]
    · rw [getpw_r_loop_erange, if_pos rfl]
  · intro outcomes
    induction outcomes with
    | nil => intro amt _; rfl
    | cons o rest ih =>
      intro amt htr
      obtain ⟨ret, e, ho, he⟩ := htr o (List.mem_cons_self o rest)
      subst ho
      have htr' : transientOnly rest := fun x hx => htr x (List.mem_cons_of_mem _ hx)
      rcases he with he | he <;> subst he
      · rw [getpw_r_loop_eintr]
        exact ih amt htr'
      · rw [getpw_r_loop_erange]
        exact ih (amt * 2) htr'

theorem getpw_r_transient_retried_witness :
    getpw_r_loop [PrimOutcome.failure 0 EINTR] 512 = none := by
  have h := getpw_r_transient_retried.1 0 EINTR [] 512 (Or.inl rfl)
  rw [h]
  rfl

/-- C8: `Passwd::current_user` returns exactly `Passwd::from_uid` applied to
the uid reported by `libc::getuid`. -/
theorem current_user_eq_from_uid_getuid (env : OsEnv) :
    Passwd.current_user env = Passwd.from_uid env env.getuid := rfl

/-- C9: the derived equality on `Passwd` is structural over all seven
fields: two records compare equal iff name, passwd, uid, gid, gecos, dir and
shell are pairwise equal. -/
theorem passwd_beq_iff_fields (p q : Passwd) :
    Passwd.beq p q = true ↔
      (p.name = q.name ∧ p.passwd = q.passwd ∧ p.uid = q.uid ∧ p.gid = q.gid ∧
        p.gecos = q.gecos ∧ p.dir = q.dir ∧ p.shell = q.shell) := by
  simp [Passwd.beq, and_assoc]

/-- C10: on failure the loop classifies solely from the observed errno; the
primitive's integer return code is discarded, so erasing every return code
changes nothing about the result. -/
theorem getpw_r_ignores_ret (outcomes : List PrimOutcome) (amt : Nat) :
    getpw_r_loop (outcomes.map eraseRet) amt = getpw_r_loop outcomes amt := by
  induction outcomes generalizing amt with
  | nil => rfl
  | cons o rest ih =>
    cases o with
    | success buf pw => rfl
    | failure ret errno =>
      by_cases h1 : errno = EINTR
      · subst h1
        rw [List.map_cons]
        show getpw_r_loop (PrimOutcome.failure 0 EINTR :: List.map eraseRet rest) amt = _
        rw [getpw_r_loop_eintr, getpw_r_loop_eintr]
        exact ih amt
      · by_cases h2 : errno = ERANGE
        · subst h2
          rw [List.map_cons]
          show getpw_r_loop (PrimOutcome.failure 0 ERANGE :: List.map eraseRet rest) amt = _
          rw [getpw_r_loop_erange, getpw_r_loop_erange]
          exact ih (amt * 2)
        · rw [List.map_cons]
          show getpw_r_loop (PrimOutcome.failure 0 errno :: List.map eraseRet rest) amt = _
          rw [getpw_r_loop_terminal 0 errno _ _ h1 h2,
            getpw_r_loop_terminal ret errno _ _ h1 h2]

theorem foundFrom_nil (r : Passwd) : ¬ foundFrom [] r := by
  rintro ⟨pre, buf, pw, rest, heq, -⟩
  exact List.cons_ne_nil _ _ ((List.append_eq_nil.mp heq.symm).2)

theorem foundFrom_cons_success (buf : List Nat) (pw : CPasswd)
    (rest : List PrimOutcome) (r : Passwd) :
    foundFrom (PrimOutcome.success buf pw :: rest) r ↔
      r = Passwd.from_c_struct buf pw := by
  constructor
  · rintro ⟨pre, buf', pw', rest', heq, htr, h1, h2, h3, h4, h5, h6, h7⟩
    cases pre with
    | nil =>
      simp only [List.nil_append, List.cons.injEq, PrimOutcome.success.injEq] at heq
      obtain ⟨⟨hb, hp⟩, -⟩ := heq
      subst hb
      subst hp
      cases r
      simp only [Passwd.from_c_struct, Passwd.mk.injEq]
      exact ⟨h1, h2, h3, h4, h5, h6, h7⟩
    | cons x pre =>
      simp only [List.cons_append, List.cons.injEq] at heq
      obtain ⟨ret, e, hx, -⟩ := htr x (List.mem_cons_self x pre)
      rw [hx] at heq
      exact PrimOutcome.noConfusion heq.1
  · intro h
    subst h
    exact ⟨[], buf, pw, rest, rfl, fun o ho => absurd ho (List.not_mem_nil o),
      rfl, rfl, rfl, rfl, rfl, rfl, rfl⟩

theorem foundFrom_cons_transient (ret e : Int) (he : e = EINTR ∨ e = ERANGE)
    (rest : List PrimOutcome) (r : Passwd) :
    foundFrom (PrimOutcome.failure ret e :: rest) r ↔ foundFrom rest r := by
  constructor
  · rintro ⟨pre, buf, pw, rest', heq, htr, hf⟩
    cases pre with
    | nil =>
      simp only [List.nil_append, List.cons.injEq] at heq
      exact PrimOutcome.noConfusion heq.1
    | cons x pre =>
      simp only [List.cons_append, List.cons.injEq] at heq
      exact ⟨pre, buf, pw, rest', heq.2,
        fun o ho => htr o (List.mem_cons_of_mem x ho), hf⟩
  · rintro ⟨pre, buf, pw, rest', heq, htr, hf⟩
    refine ⟨PrimOutcome.failure ret e :: pre, buf, pw, rest', ?_, ?_, hf⟩
    · rw [heq, List.cons_append]
    · intro o ho
      rcases List.mem_cons.mp ho with ho | ho
      · exact ⟨ret, e, ho, he⟩
      · exact htr o ho

theorem foundFrom_cons_nontransient (ret e : Int)
    (he : ¬(e = EINTR ∨ e = ERANGE)) (rest : List PrimOutcome) (r : Passwd) :
    ¬ foundFrom (PrimOutcome.failure ret e :: rest) r := by
  rintro ⟨pre, buf, pw, rest', heq, htr, -⟩
  cases pre with
  | nil =>
    simp only [List.nil_append, List.cons.injEq] at heq
    exact PrimOutcome.noConfusion heq.1
  | cons x pre =>
    simp only [List.cons_append, List.cons.injEq] at heq
    obtain ⟨ret', e', hx, he'⟩ := htr x (List.mem_cons_self x pre)
    have hx2 : PrimOutcome.failure ret e = PrimOutcome.failure ret' e' :=
      heq.1.trans hx
    obtain ⟨-, he2⟩ := PrimOutcome.failure.inj hx2
    rw [← he2] at he'
    exact he he'

/-- C3: the loop returns `Ok(Some(r))` exactly when it reaches an invocation
whose output pointer-to-pointer is non-null after only transient (retried)
failures, and then each of the seven fields of `r` is the copy of the
corresponding raw field taken out of the scratch buffer of that successful
invocation; no record is ever built from an invocation the primitive did not
successfully populate. -/
theorem getpw_r_success_iff (outcomes : List PrimOutcome) (amt : Nat) (r : Passwd) :
    getpw_r_loop outcomes amt = some (Except.ok (some r)) ↔
      foundFrom outcomes r := by
  induction outcomes generalizing amt with
  | nil =>
    constructor
    · intro h
      exact Option.noConfusion h
    · intro h
      exact absurd h (foundFrom_nil r)
  | cons o rest ih =>
    cases o with
    | success buf pw =>
      rw [getpw_r_loop_success, foundFrom_cons_success]
      simp only [Option.some.injEq, Except.ok.injEq]
      exact eq_comm
    | failure ret e =>
      by_cases h1 : e = EINTR
      · subst h1
        rw [getpw_r_loop_eintr, foundFrom_cons_transient ret EINTR (Or.inl rfl)]
        exact ih amt
      · by_cases h2 : e = ERANGE
        · subst h2
          rw [getpw_r_loop_erange, foundFrom_cons_transient ret ERANGE (Or.inr rfl)]
          exact ih (amt * 2)
        · rw [getpw_r_loop_terminal ret e rest amt h1 h2]
          constructor
          · intro h
            by_cases hc : e = 0 ∨ e = ENOENT ∨ e = ESRCH ∨ e = EBADF ∨ e = EPERM
            · rw [if_pos hc] at h
              simp at h
            · rw [if_neg hc] at h
              simp at h
          · intro h
            exact absurd h
              (foundFrom_cons_nontransient ret e (not_or.mpr ⟨h1, h2⟩) rest r)

theorem getpw_r_success_iff_witness :
    getpw_r_loop [PrimOutcome.success [114, 0] ⟨0, 0, 5, 6, 0, 0, 0⟩] 512 =
      some (Except.ok (some ⟨[114], [114], 5, 6, [114], [114], [114]⟩)) :=
  (getpw_r_success_iff _ _ _).mpr
    ⟨[], [114, 0], ⟨0, 0, 5, 6, 0, 0, 0⟩, [], rfl,
      fun o ho => absurd ho (List.not_mem_nil o),
      rfl, rfl, rfl, rfl, rfl, rfl, rfl⟩

/-- Step equation: the invocation trace of a successful first invocation. -/
theorem getpw_r_caps_success (buf : List Nat) (pw : CPasswd)
    (rest : List PrimOutcome) (amt cap : Nat) :
    getpw_r_caps (PrimOutcome.success buf pw :: rest) amt cap =
      [(amt, max cap amt)] := rfl

/-- Step equation: the invocation trace after an `EINTR` failure. -/
theorem getpw_r_caps_eintr (ret : Int) (rest : List PrimOutcome) (amt cap : Nat) :
    getpw_r_caps (PrimOutcome.failure ret EINTR :: rest) amt cap =
      (amt, max cap amt) :: getpw_r_caps rest amt (max cap amt) := rfl

/-- Step equation: the invocation trace after an `ERANGE` failure. -/
theorem getpw_r_caps_erange (ret : Int) (rest : List PrimOutcome) (amt cap : Nat) :
    getpw_r_caps (PrimOutcome.failure ret ERANGE :: rest) amt cap =
      (amt, max cap amt) :: getpw_r_caps rest (amt * 2) (max cap amt) := rfl

/-- Step equation: the invocation trace of a terminal failure. -/
theorem getpw_r_caps_terminal (ret e : Int) (rest : List PrimOutcome)
    (amt cap : Nat) (h1 : e ≠ EINTR) (h2 : e ≠ ERANGE) :
    getpw_r_caps (PrimOutcome.failure ret e :: rest) amt cap =
      [(amt, max cap amt)] := by
  simp only [getpw_r_caps, if_neg h1, if_neg h2]

/-- Every capacity in the trace is at least the capacity the buffer already
had when the trace started (a `Vec` never shrinks). -/
theorem getpw_r_caps_head (outcomes : List PrimOutcome) (amt cap : Nat) :
    ∀ p ∈ (getpw_r_caps outcomes amt cap).head?, cap ≤ p.2 := by
  cases outcomes with
  | nil =>
    intro p hp
    simp [getpw_r_caps] at hp
  | cons o rest =>
    intro p hp
    have hh : (getpw_r_caps (o :: rest) amt cap).head? =
        some (amt, max cap amt) := rfl
    rw [hh] at hp
    simp only [Option.mem_def, Option.some.injEq] at hp
    subst hp
    exact le_max_left cap amt

/-- Adjacent invocations of one `getpw_r` call pass nondecreasing
capacities. -/
theorem getpw_r_caps_chain (outcomes : List PrimOutcome) (amt cap : Nat) :
    List.Chain' (fun p q : Nat × Nat => p.2 ≤ q.2)
      (getpw_r_caps outcomes amt cap) := by
  induction outcomes generalizing amt cap with
  | nil => exact List.chain'_nil
  | cons o rest ih =>
    cases o with
    | success buf pw =>
      rw [getpw_r_caps_success]
      exact List.chain'_singleton _
    | failure ret e =>
      by_cases h1 : e = EINTR
      · subst h1
        rw [getpw_r_caps_eintr]
        exact List.chain'_cons'.mpr
          ⟨fun q hq => getpw_r_caps_head rest amt (max cap amt) q hq,
            ih amt (max cap amt)⟩
      · by_cases h2 : e = ERANGE
        · subst h2
          rw [getpw_r_caps_erange]
          exact List.chain'_cons'.mpr
            ⟨fun q hq => getpw_r_caps_head rest (amt * 2) (max cap amt) q hq,
              ih (amt * 2) (max cap amt)⟩
        · rw [getpw_r_caps_terminal ret e rest amt cap h1 h2]
          exact List.chain'_singleton _

/-- After an iteration that observed `ERANGE`, the next invocation requests
exactly twice the previous requested size and is made with capacity at least
that. -/
theorem getpw_r_caps_doubling :
    ∀ (outcomes : List PrimOutcome) (amt cap i : Nat) (ret : Int)
      (a c a' c' : Nat),
      outcomes.get? i = some (PrimOutcome.failure ret ERANGE) →
      (getpw_r_caps outcomes amt cap).get? i = some (a, c) →
      (getpw_r_caps outcomes amt cap).get? (i + 1) = some (a', c') →
      a' = a * 2 ∧ a * 2 ≤ c' := by
  intro outcomes
  induction outcomes with
  | nil =>
    intro amt cap i ret a c a' c' h1 h2 h3
    exact Option.noConfusion h1
  | cons o rest ih =>
    intro amt cap i ret a c a' c' h1 h2 h3
    cases i with
    | zero =>
      have ho : o = PrimOutcome.failure ret ERANGE := Option.some.inj h1
      subst ho
      rw [getpw_r_caps_erange] at h2 h3
      have ha : amt = a := congrArg Prod.fst (Option.some.inj h2)
      rw [← ha]
      cases rest with
      | nil =>
        exact Option.noConfusion h3
      | cons o2 rest2 =>
        have h3' : (getpw_r_caps (o2 :: rest2) (amt * 2) (max cap amt)).get? 0 =
            some (a', c') := h3
        have hh : (getpw_r_caps (o2 :: rest2) (amt * 2) (max cap amt)).get? 0 =
            some (amt * 2, max (max cap amt) (amt * 2)) := rfl
        rw [hh] at h3'
        obtain ⟨ha', hc'⟩ := Prod.mk.inj (Option.some.inj h3')
        constructor
        · exact ha'.symm
        · rw [← hc']
          exact le_max_right (max cap amt) (amt * 2)
    | succ i =>
      cases o with
      | success buf pw =>
        rw [getpw_r_caps_success] at h2
        cases i with
        | zero => exact Option.noConfusion h2
        | succ j => exact Option.noConfusion h2
      | failure ret2 e =>
        by_cases he1 : e = EINTR
        · subst he1
          rw [getpw_r_caps_eintr] at h2 h3
          exact ih amt (max cap amt) i ret a c a' c' h1 h2 h3
        · by_cases he2 : e = ERANGE
          · subst he2
            rw [getpw_r_caps_erange] at h2 h3
            exact ih (amt * 2) (max cap amt) i ret a c a' c' h1 h2 h3
          · rw [getpw_r_caps_terminal ret2 e rest amt cap he1 he2] at h2
            cases i with
            | zero => exact Option.noConfusion h2
            | succ j => exact Option.noConfusion h2

/-- C4: over one `getpw_r` call the scratch-buffer capacity passed to the
primitive never decreases, and after every iteration that observed `ERANGE`
the next invocation requests exactly double the previous requested size and
passes a capacity of at least twice that previous requested size. -/
theorem getpw_r_capacity_monotone (outcomes : List PrimOutcome) (amt cap : Nat) :
    List.Pairwise (fun p q : Nat × Nat => p.2 ≤ q.2)
      (getpw_r_caps outcomes amt cap) ∧
    (∀ (i : Nat) (ret : Int) (a c a' c' : Nat),
        outcomes.get? i = some (PrimOutcome.failure ret ERANGE) →
        (getpw_r_caps outcomes amt cap).get? i = some (a, c) →
        (getpw_r_caps outcomes amt cap).get? (i + 1) = some (a', c') →
        a' = a * 2 ∧ a * 2 ≤ c') := by
  constructor
  · have tr : IsTrans (Nat × Nat) (fun p q : Nat × Nat => p.2 ≤ q.2) :=
      ⟨fun x y z hxy hyz => le_trans hxy hyz⟩
    exact (@List.chain'_iff_pairwise (Nat × Nat) (fun p q : Nat × Nat => p.2 ≤ q.2)
      tr (getpw_r_caps outcomes amt cap)).mp (getpw_r_caps_chain outcomes amt cap)
  · intro i ret a c a' c' h1 h2 h3
    exact getpw_r_caps_doubling (outcomes) amt cap i ret a c a' c' h1 h2 h3

theorem getpw_r_capacity_monotone_witness :
    (1024 : Nat) = 512 * 2 ∧ 512 * 2 ≤ 1024 :=
  (getpw_r_capacity_monotone
      [PrimOutcome.failure 0 ERANGE, PrimOutcome.failure 0 ENOENT] 512 512).2
    0 0 512 512 1024 1024 rfl rfl rfl
